import Mathlib

/-!
Verification of the privacy-preserving breach-check subsystem
(`src/analyzer/breach.ts`): a shallow embedding of the digest function
(SHA-1, as `bytesToHex(sha1(password)).toUpperCase()`), the LRU volatile
cache, the IndexedDB-backed durable store, the HIBP remote lookup client
with retry/backoff, and the orchestrating `checkPassword`, together with
theorems settling the specified properties.
-/

set_option maxRecDepth 100000

namespace BreachSpec

/-! ### SHA-1 (the digest function)

The source hashes the password with `sha1` from `@noble/hashes` and hex
encodes it (`bytesToHex`), then upper-cases.  We embed SHA-1 over byte
lists, with 32-bit words as `Nat` reduced mod `2^32`. -/

/-- Truncate to a 32-bit word. -/
def w32 (x : Nat) : Nat := x % 4294967296

/-- Rotate a 32-bit word left by `n` (for `x < 2^32`, `0 < n < 32`). -/
def rotl32 (x n : Nat) : Nat := ((x <<< n) % 4294967296) ||| (x >>> (32 - n))

/-- SHA-1 initial state words. -/
def initH : Nat × Nat × Nat × Nat × Nat :=
  (0x67452301, 0xEFCDAB89, 0x98BADCFE, 0x10325476, 0xC3D2E1F0)

/-- Big-endian 8-byte encoding of a (64-bit) length. -/
def beBytes8 (n : Nat) : List Nat :=
  [(n >>> 56) % 256, (n >>> 48) % 256, (n >>> 40) % 256, (n >>> 32) % 256,
   (n >>> 24) % 256, (n >>> 16) % 256, (n >>> 8) % 256, n % 256]

/-- SHA-1 padding: append `0x80`, zero-fill to 56 mod 64, then the
bit length as 8 big-endian bytes. -/
def sha1pad (msg : List Nat) : List Nat :=
  msg ++ 128 :: (List.replicate ((119 - msg.length % 64) % 64) 0 ++ beBytes8 (8 * msg.length))

/-- Group bytes into big-endian 32-bit words. -/
def bytesToWords : List Nat → List Nat
  | b0 :: b1 :: b2 :: b3 :: rest =>
      (((b0 * 256 + b1) * 256 + b2) * 256 + b3) :: bytesToWords rest
  | _ => []

/-- Indexing into the message schedule. -/
def getW (w : List Nat) (i : Nat) : Nat := w.getD i 0

/-- Extend the 16-word block to the 80-word schedule (`n` more words). -/
def extendW : List Nat → Nat → List Nat
  | w, 0 => w
  | w, n + 1 =>
      extendW (w ++ [rotl32 (getW w (w.length - 3) ^^^ getW w (w.length - 8) ^^^
        getW w (w.length - 14) ^^^ getW w (w.length - 16)) 1]) n

/-- SHA-1 round function and constant for round `t`. -/
def fkRound (t b c d : Nat) : Nat × Nat :=
  if t < 20 then ((b &&& c) ||| ((b ^^^ 4294967295) &&& d), 0x5A827999)
  else if t < 40 then (b ^^^ c ^^^ d, 0x6ED9EBA1)
  else if t < 60 then ((b &&& c) ||| (b &&& d) ||| (c &&& d), 0x8F1BBCDC)
  else (b ^^^ c ^^^ d, 0xCA62C1D6)

/-- One SHA-1 round. -/
def sha1Round (t wt : Nat) : Nat × Nat × Nat × Nat × Nat → Nat × Nat × Nat × Nat × Nat
  | (a, b, c, d, e) =>
      ((w32 (rotl32 a 5 + (fkRound t b c d).1 + e + (fkRound t b c d).2 + wt)), a, rotl32 b 30, c, d)

/-- Run the 80 rounds over the schedule. -/
def sha1Rounds : Nat → List Nat → (Nat × Nat × Nat × Nat × Nat) → Nat × Nat × Nat × Nat × Nat
  | _, [], s => s
  | t, wt :: ws, s => sha1Rounds (t + 1) ws (sha1Round t wt s)

/-- Compress one 16-word block into the running state. -/
def compressBlock (h : Nat × Nat × Nat × Nat × Nat) (ws : List Nat) : Nat × Nat × Nat × Nat × Nat :=
  match h, sha1Rounds 0 (extendW ws 64) h with
  | (h0, h1, h2, h3, h4), (a, b, c, d, e) =>
      (w32 (h0 + a), w32 (h1 + b), w32 (h2 + c), w32 (h3 + d), w32 (h4 + e))

/-- Fold the compression over 16-word blocks. -/
def blocksLoop : (Nat × Nat × Nat × Nat × Nat) → List Nat → Nat × Nat × Nat × Nat × Nat
  | h, w0 :: w1 :: w2 :: w3 :: w4 :: w5 :: w6 :: w7 :: w8 :: w9 :: w10 :: w11 :: w12 :: w13 :: w14 :: w15 :: rest =>
      blocksLoop (compressBlock h [w0, w1, w2, w3, w4, w5, w6, w7, w8, w9, w10, w11, w12, w13, w14, w15]) rest
  | h, _ => h

/-- The five final SHA-1 state words for a byte message. -/
def sha1Words (msg : List Nat) : Nat × Nat × Nat × Nat × Nat :=
  blocksLoop initH (bytesToWords (sha1pad msg))

/-- Split a 32-bit word into 4 big-endian bytes. -/
def wordToBytes (w : Nat) : List Nat :=
  [w / 16777216 % 256, w / 65536 % 256, w / 256 % 256, w % 256]

/-- SHA-1 digest (20 bytes) of a byte message. -/
def sha1Bytes (msg : List Nat) : List Nat :=
  match sha1Words msg with
  | (a, b, c, d, e) =>
      wordToBytes a ++ wordToBytes b ++ wordToBytes c ++ wordToBytes d ++ wordToBytes e

/-- UTF-8 encoding of one Unicode scalar value (what `TextEncoder` does). -/
def utf8EncodeCharNat (n : Nat) : List Nat :=
  if n < 128 then [n]
  else if n < 2048 then [192 + n / 64, 128 + n % 64]
  else if n < 65536 then [224 + n / 4096, 128 + n / 64 % 64, 128 + n % 64]
  else [240 + n / 262144, 128 + n / 4096 % 64, 128 + n / 64 % 64, 128 + n % 64]

/-- UTF-8 bytes of a password string. -/
def utf8Bytes (s : String) : List Nat := s.data.flatMap fun c => utf8EncodeCharNat c.toNat

/-- Lower-case hex digit for `n < 16` (as in `@noble/hashes` `bytesToHex`). -/
def hexCharLower (n : Nat) : Char :=
  if n < 10 then Char.ofNat (48 + n) else Char.ofNat (87 + n)

/-- Lower-case hex encoding of a byte list. -/
def bytesToHex : List Nat → List Char
  | [] => []
  | b :: rest => hexCharLower (b / 16) :: hexCharLower (b % 16) :: bytesToHex rest

/-- Model of `bytesToHex(sha1(password)).toUpperCase()` from `checkPassword`. -/
def sha1HexUpper (p : String) : List Char :=
  (bytesToHex (sha1Bytes (utf8Bytes p))).map Char.toUpper

/-- Model of `hash.substring(0, 5)` — the 5-character digest k-anonymity part. -/
def hashPfx (p : String) : List Char := (sha1HexUpper p).take 5

/-- Model of `hash.substring(5)` — the remaining 35 digest characters, kept local. -/
def hashSfx (p : String) : List Char := (sha1HexUpper p).drop 5

example : sha1HexUpper "abc" = "A9993E364706816ABA3E25717850C26C9CD0D89D".data := by decide

example : sha1HexUpper "" = "DA39A3EE5E6B4B0D3255BFEF95601890AFD80709".data := by decide

example : sha1HexUpper "password" = "5BAA61E4C9B93F3F0682250B6CF8331B7EE68FD8".data := by decide

/-! ### Constants from `breach.ts` -/

/-- Constant `HIBP_API_URL` — the fixed breach-corpus endpoint. -/
def HIBP_API_URL : List Char := "https://api.pwnedpasswords.com/range/".data

/-- Constant `CACHE_TTL_MS = 24 * 60 * 60 * 1000`. -/
def CACHE_TTL_MS : Int := 86400000

/-- Constant `MAX_CACHE_SIZE = 1000` — volatile-cache capacity. -/
def MAX_CACHE_SIZE : Nat := 1000

/-- Constant `MAX_RETRIES = 3`. -/
def MAX_RETRIES : Nat := 3

/-! ### Volatile LRU cache

`LRUCache` keeps a `Map<string, LRUNode>` plus `head`/`tail` object
references into a doubly linked list.  JavaScript object references are
embedded as keys: the map holds at most one node per key, so a node
reference is exactly its key, and `prev`/`next` are `Option` keys.  The
map itself is an association list in insertion order (`Map` iteration
order), mutated in place by key. -/

/-- A key in the LRU cache: a 5-character digest piece. -/
abbrev LRUKey := List Char

/-- Node type `LRUNode` without its `key` field (the key indexes the map). -/
structure LRUNode where
  prev : Option LRUKey
  next : Option LRUKey
deriving DecidableEq, Repr

instance : Inhabited LRUNode := ⟨⟨none, none⟩⟩

instance : Nonempty LRUNode := ⟨⟨none, none⟩⟩

instance : Nonempty (LRUKey × LRUNode) := ⟨⟨[], ⟨none, none⟩⟩⟩

/-- The `LRUCache` instance state. -/
structure LRUCacheState where
  cache : List (LRUKey × LRUNode)
  head : Option LRUKey
  tail : Option LRUKey
  maxSize : Nat
deriving DecidableEq, Repr

/-- Model of `new LRUCache(maxSize)`. -/
def emptyLRU (maxSize : Nat) : LRUCacheState :=
  { cache := [], head := none, tail := none, maxSize := maxSize }

/-- Model of `Map.get`. -/
def mget : List (LRUKey × LRUNode) → LRUKey → Option LRUNode
  | [], _ => none
  | (k', n) :: rest, k => if k' = k then some n else mget rest k

/-- Model of `Map.set` (replace in place, else append — `Map` insertion order). -/
def mset : List (LRUKey × LRUNode) → LRUKey → LRUNode → List (LRUKey × LRUNode)
  | [], k, n => [(k, n)]
  | (k', n') :: rest, k, n => if k' = k then (k, n) :: rest else (k', n') :: mset rest k n

/-- Model of `Map.delete`. -/
def mdel : List (LRUKey × LRUNode) → LRUKey → List (LRUKey × LRUNode)
  | [], _ => []
  | (k', n') :: rest, k => if k' = k then rest else (k', n') :: mdel rest k

/-- Mutate `node.prev` through the node reference `k`. -/
def setPrev (c : List (LRUKey × LRUNode)) (k : LRUKey) (p : Option LRUKey) :
    List (LRUKey × LRUNode) :=
  match mget c k with
  | some n => mset c k { n with prev := p }
  | none => c

/-- Mutate `node.next` through the node reference `k`. -/
def setNext (c : List (LRUKey × LRUNode)) (k : LRUKey) (nx : Option LRUKey) :
    List (LRUKey × LRUNode) :=
  match mget c k with
  | some n => mset c k { n with next := nx }
  | none => c

/-- Conditional prev-update through an optional node reference
(the `node.next.prev = node.prev` step of `moveToFront`). -/
def setPrevOpt (c : List (LRUKey × LRUNode)) (o v : Option LRUKey) :
    List (LRUKey × LRUNode) :=
  match o with
  | some nx => setPrev c nx v
  | none => c

/-- Model of `LRUCache.moveToFront(node)` where `node` is the node of `key`. -/
def moveToFront (s : LRUCacheState) (key : LRUKey) (node : LRUNode) : LRUCacheState :=
  if s.head = some key then s
  else
    -- remove from current position
    let c1 := match node.prev with
      | some p => setNext s.cache p node.next
      | none => s.cache
    let c2 := setPrevOpt c1 node.next node.prev
    let tail' := if s.tail = some key then node.prev else s.tail
    -- move to front: node.prev = null, node.next = head, head.prev = node
    let c3 := mset c2 key { prev := none, next := s.head }
    let c4 := match s.head with
      | some h => setPrev c3 h (some key)
      | none => c3
    { cache := c4, head := some key, tail := tail', maxSize := s.maxSize }

/-- Model of `LRUCache.evictLRU()`; the returned key is the eviction signal passed
to `removeFromDB` (the durable-store deletion of the evicted entry). -/
def evictLRU (s : LRUCacheState) : LRUCacheState × Option LRUKey :=
  match s.tail with
  | none => (s, none)
  | some t =>
      let node := (mget s.cache t).getD { prev := none, next := none }
      let c1 := mdel s.cache t
      match node.prev with
      | some p =>
          ({ cache := setNext c1 p none, head := s.head, tail := some p,
             maxSize := s.maxSize }, some t)
      | none =>
          ({ cache := c1, head := none, tail := none, maxSize := s.maxSize }, some t)

/-- Model of `LRUCache.access(key)`: touch a key; the second component is the
eviction signal (`removeFromDB(evicted.key)`), `none` when nothing was
evicted. -/
def access (s : LRUCacheState) (key : LRUKey) : LRUCacheState × Option LRUKey :=
  match mget s.cache key with
  | none =>
      -- add new node at the head
      let c1 := match s.head with
        | some h => setPrev s.cache h (some key)
        | none => s.cache
      let c2 := mset c1 key { prev := none, next := s.head }
      let s' : LRUCacheState :=
        { cache := c2, head := some key,
          tail := if s.tail = none then some key else s.tail,
          maxSize := s.maxSize }
      if s'.cache.length > s.maxSize then evictLRU s' else (s', none)
  | some node => (moveToFront s key node, none)

/-! Specification-level order list: the intended recency order, most
recent first.  `access` is proved to realize `orderAfter` exactly. -/

/-- Recency order after touching `k` (before the capacity check). -/
def orderAccess (L : List LRUKey) (k : LRUKey) : List LRUKey :=
  if k ∈ L then k :: L.erase k else k :: L

/-- Recency order and eviction signal after a full `access`. -/
def orderAfter (L : List LRUKey) (k : LRUKey) (cap : Nat) : List LRUKey × Option LRUKey :=
  let L' := orderAccess L k
  if L'.length > cap then (L'.dropLast, L'.getLast?) else (L', none)

/-- Build the linked nodes for order `L` whose first node's `prev` is `p`. -/
def linkNodes : Option LRUKey → List LRUKey → List (LRUKey × LRUNode)
  | _, [] => []
  | p, k :: rest => (k, { prev := p, next := rest.head? }) :: linkNodes (some k) rest

/-- The canonical state realizing recency order `L`. -/
def buildState (L : List LRUKey) (cap : Nat) : LRUCacheState :=
  { cache := linkNodes none L, head := L.head?, tail := L.getLast?, maxSize := cap }

/-- State `s` faithfully represents recency order `L`: lookups agree with the
canonical linked nodes, `head`/`tail` are the ends of `L`, the map has
one entry per key of `L`, and keys are unique. -/
def stateRepr (s : LRUCacheState) (L : List LRUKey) : Prop :=
  L.Nodup ∧
  (∀ j, mget s.cache j = mget (linkNodes none L) j) ∧
  s.head = L.head? ∧
  s.tail = L.getLast? ∧
  s.cache.length = L.length ∧
  (s.cache.map Prod.fst).Nodup

/-- Keys reachable from `head` by following `next`, with fuel. -/
def reachAux (c : List (LRUKey × LRUNode)) : Option LRUKey → Nat → List LRUKey
  | none, _ => []
  | some _, 0 => []
  | some k, fuel + 1 =>
      match mget c k with
      | none => []
      | some n => k :: reachAux c n.next fuel

/-- The keys of the nodes reachable from `head` to `tail`. -/
def reachable (s : LRUCacheState) : List LRUKey :=
  reachAux s.cache s.head (s.cache.length + 1)

/-! ### Association-map lemmas -/

theorem mget_eq_none_iff (c : List (LRUKey × LRUNode)) (j : LRUKey) :
    mget c j = none ↔ j ∉ c.map Prod.fst := by
  induction c with
  | nil => simp [mget]
  | cons e rest ih =>
      obtain ⟨k', n'⟩ := e
      by_cases h : k' = j
      · subst h; simp [mget]
      · have h' : ¬ j = k' := fun hx => h hx.symm
        simp [mget, h, h', ih]

theorem mget_mset (c : List (LRUKey × LRUNode)) (k : LRUKey) (n : LRUNode) (j : LRUKey) :
    mget (mset c k n) j = if k = j then some n else mget c j := by
  induction c with
  | nil => simp [mset, mget]
  | cons e rest ih =>
      obtain ⟨k', n'⟩ := e
      by_cases h1 : k' = k
      · subst h1
        by_cases h2 : k' = j <;> simp [mset, mget, h2]
      · by_cases h2 : k' = j
        · subst h2
          have h3 : ¬ k = k' := fun hx => h1 hx.symm
          simp [mset, mget, h1, h3]
        · simp [mset, mget, h1, h2, ih]

theorem mset_map_fst_of_mem (c : List (LRUKey × LRUNode)) (k : LRUKey) (n : LRUNode)
    (h : mget c k ≠ none) : (mset c k n).map Prod.fst = c.map Prod.fst := by
  induction c with
  | nil => simp [mget] at h
  | cons e rest ih =>
      obtain ⟨k', n'⟩ := e
      by_cases h1 : k' = k
      · subst h1; simp [mset]
      · simp [mget, h1] at h
        simp [mset, h1, ih h]

theorem mset_map_fst_of_not_mem (c : List (LRUKey × LRUNode)) (k : LRUKey) (n : LRUNode)
    (h : mget c k = none) : (mset c k n).map Prod.fst = c.map Prod.fst ++ [k] := by
  induction c with
  | nil => simp [mset]
  | cons e rest ih =>
      obtain ⟨k', n'⟩ := e
      by_cases h1 : k' = k
      · simp [mget, h1] at h
      · simp [mget, h1] at h
        simp [mset, h1, ih h]

theorem mdel_map_fst (c : List (LRUKey × LRUNode)) (k : LRUKey) :
    (mdel c k).map Prod.fst = (c.map Prod.fst).erase k := by
  induction c with
  | nil => simp [mdel]
  | cons e rest ih =>
      obtain ⟨k', n'⟩ := e
      by_cases h1 : k' = k <;> simp [mdel, h1, List.erase_cons, ih]

theorem mget_mdel (c : List (LRUKey × LRUNode)) (k j : LRUKey)
    (hnd : (c.map Prod.fst).Nodup) :
    mget (mdel c k) j = if k = j then none else mget c j := by
  induction c with
  | nil => simp [mdel, mget]
  | cons e rest ih =>
      obtain ⟨k', n'⟩ := e
      simp only [List.map_cons, List.nodup_cons] at hnd
      by_cases h1 : k' = k
      · subst h1
        by_cases h2 : k' = j
        · subst h2
          simp [mdel, mget, (mget_eq_none_iff rest k').mpr hnd.1]
        · simp [mdel, mget, h2, Ne.symm h2]
      · by_cases h2 : k' = j
        · subst h2
          have : ¬ k = k' := fun h => h1 h.symm
          simp [mdel, mget, h1, this]
        · simp [mdel, mget, h1, h2, ih hnd.2]

theorem mget_setPrev (c : List (LRUKey × LRUNode)) (k : LRUKey) (p : Option LRUKey)
    (j : LRUKey) :
    mget (setPrev c k p) j =
      if k = j then (mget c j).map (fun n => { n with prev := p }) else mget c j := by
  unfold setPrev
  cases hm : mget c k with
  | none =>
      by_cases h : k = j
      · subst h; simp [hm]
      · simp [h]
  | some n =>
      rw [mget_mset]
      by_cases h : k = j
      · subst h; simp [hm]
      · simp [h]

theorem mget_setNext (c : List (LRUKey × LRUNode)) (k : LRUKey) (nx : Option LRUKey)
    (j : LRUKey) :
    mget (setNext c k nx) j =
      if k = j then (mget c j).map (fun n => { n with next := nx }) else mget c j := by
  unfold setNext
  cases hm : mget c k with
  | none =>
      by_cases h : k = j
      · subst h; simp [hm]
      · simp [h]
  | some n =>
      rw [mget_mset]
      by_cases h : k = j
      · subst h; simp [hm]
      · simp [h]

theorem setPrev_map_fst (c : List (LRUKey × LRUNode)) (k : LRUKey) (p : Option LRUKey) :
    (setPrev c k p).map Prod.fst = c.map Prod.fst := by
  unfold setPrev
  cases hm : mget c k with
  | none => rfl
  | some n => exact mset_map_fst_of_mem c k _ (by simp [hm])

theorem setNext_map_fst (c : List (LRUKey × LRUNode)) (k : LRUKey) (nx : Option LRUKey) :
    (setNext c k nx).map Prod.fst = c.map Prod.fst := by
  unfold setNext
  cases hm : mget c k with
  | none => rfl
  | some n => exact mset_map_fst_of_mem c k _ (by simp [hm])

theorem mget_setPrevOpt (c : List (LRUKey × LRUNode)) (o v : Option LRUKey) (j : LRUKey) :
    mget (setPrevOpt c o v) j =
      if o = some j then (mget c j).map (fun n => { n with prev := v }) else mget c j := by
  cases o with
  | none => simp [setPrevOpt]
  | some nx =>
      show mget (setPrev c nx v) j = _
      rw [mget_setPrev]
      by_cases h : nx = j
      · subst h
        rw [if_pos rfl, if_pos rfl]
      · have h' : ¬ (some nx = some j) := fun hx => h (Option.some.inj hx)
        rw [if_neg h, if_neg h']

theorem setPrevOpt_map_fst (c : List (LRUKey × LRUNode)) (o v : Option LRUKey) :
    (setPrevOpt c o v).map Prod.fst = c.map Prod.fst := by
  cases o with
  | none => rfl
  | some nx => exact setPrev_map_fst c nx v

theorem setPrevOpt_length (c : List (LRUKey × LRUNode)) (o v : Option LRUKey) :
    (setPrevOpt c o v).length = c.length := by
  have := congrArg List.length (setPrevOpt_map_fst c o v)
  simpa using this

theorem getLast?_append_cons (X : List LRUKey) (y : LRUKey) (Z : List LRUKey) :
    (X ++ y :: Z).getLast? = (y :: Z).getLast? := by
  rw [List.getLast?_append]
  cases hz : (y :: Z).getLast? with
  | none => simp [List.getLast?_eq_none_iff] at hz
  | some w => rfl

theorem getLast?_cons_of_ne_nil (k : LRUKey) (E : List LRUKey) (h : E ≠ []) :
    (k :: E).getLast? = E.getLast? := by
  cases E with
  | nil => exact absurd rfl h
  | cons e E' => rw [List.getLast?_cons_cons]

/-! ### `linkNodes` lemmas -/

theorem linkNodes_map_fst (p : Option LRUKey) (L : List LRUKey) :
    (linkNodes p L).map Prod.fst = L := by
  induction L generalizing p with
  | nil => rfl
  | cons k rest ih => simp [linkNodes, ih]

theorem linkNodes_length (p : Option LRUKey) (L : List LRUKey) :
    (linkNodes p L).length = L.length := by
  have := congrArg List.length (linkNodes_map_fst p L)
  simpa using this

theorem mget_linkNodes_not_mem (p : Option LRUKey) (L : List LRUKey) (j : LRUKey)
    (h : j ∉ L) : mget (linkNodes p L) j = none :=
  (mget_eq_none_iff _ _).mpr (by rwa [linkNodes_map_fst])

theorem mget_linkNodes_cons_self (p : Option LRUKey) (k : LRUKey) (rest : List LRUKey) :
    mget (linkNodes p (k :: rest)) k = some ⟨p, rest.head?⟩ := by
  simp [linkNodes, mget]

theorem mget_linkNodes_cons_ne (p : Option LRUKey) (k : LRUKey) (rest : List LRUKey)
    (j : LRUKey) (h : k ≠ j) :
    mget (linkNodes p (k :: rest)) j = mget (linkNodes (some k) rest) j := by
  simp [linkNodes, mget, h]

theorem getLast?_cons_or (l : List LRUKey) (a : LRUKey) (p : Option LRUKey) :
    ((a :: l).getLast?).or p = (l.getLast?).or (some a) := by
  induction l generalizing a p with
  | nil => simp
  | cons b t ih => rw [List.getLast?_cons_cons, ih b p, ih b (some a)]

theorem mget_linkNodes_append (p : Option LRUKey) (L₁ : List LRUKey) (j : LRUKey)
    (L₂ : List LRUKey) (h : j ∉ L₁) :
    mget (linkNodes p (L₁ ++ j :: L₂)) j = some ⟨(L₁.getLast?).or p, L₂.head?⟩ := by
  induction L₁ generalizing p with
  | nil => simpa using mget_linkNodes_cons_self p j L₂
  | cons a t ih =>
      have haj : a ≠ j := fun h' => h (by simp [h'])
      have hjt : j ∉ t := fun h' => h (by simp [h'])
      rw [List.cons_append, mget_linkNodes_cons_ne _ _ _ _ haj, ih (some a) hjt,
        getLast?_cons_or]

/-! ### Auxiliary facts for the simulation proof -/

theorem setPrev_length (c : List (LRUKey × LRUNode)) (k : LRUKey) (p : Option LRUKey) :
    (setPrev c k p).length = c.length := by
  have := congrArg List.length (setPrev_map_fst c k p)
  simpa using this

theorem setNext_length (c : List (LRUKey × LRUNode)) (k : LRUKey) (nx : Option LRUKey) :
    (setNext c k nx).length = c.length := by
  have := congrArg List.length (setNext_map_fst c k nx)
  simpa using this

theorem mset_length_of_mem (c : List (LRUKey × LRUNode)) (k : LRUKey) (n : LRUNode)
    (h : mget c k ≠ none) : (mset c k n).length = c.length := by
  have := congrArg List.length (mset_map_fst_of_mem c k n h)
  simpa using this

theorem mset_length_of_not_mem (c : List (LRUKey × LRUNode)) (k : LRUKey) (n : LRUNode)
    (h : mget c k = none) : (mset c k n).length = c.length + 1 := by
  have := congrArg List.length (mset_map_fst_of_not_mem c k n h)
  simpa using this

theorem mdel_length_of_mem (c : List (LRUKey × LRUNode)) (k : LRUKey)
    (h : mget c k ≠ none) : (mdel c k).length + 1 = c.length := by
  have hk : k ∈ c.map Prod.fst := by
    by_contra hk
    exact h ((mget_eq_none_iff c k).mpr hk)
  have h1 : (mdel c k).length = ((c.map Prod.fst).erase k).length := by
    have := congrArg List.length (mdel_map_fst c k)
    simpa using this
  have h2 : 0 < c.length := by
    have := List.length_pos_of_mem hk
    simpa using this
  rw [h1, List.length_erase_of_mem hk, List.length_map]
  omega

theorem split_first_of_mem {L : List LRUKey} {j : LRUKey} (hj : j ∈ L) (hnd : L.Nodup) :
    ∃ C D, L = C ++ j :: D ∧ j ∉ C ∧ j ∉ D := by
  obtain ⟨C, D, rfl⟩ := List.append_of_mem hj
  rw [List.nodup_append] at hnd
  obtain ⟨-, hD, hdisj⟩ := hnd
  rw [List.nodup_cons] at hD
  exact ⟨C, D, rfl, fun hC => hdisj hC (List.mem_cons_self j D), hD.1⟩

theorem stateRepr_build (L : List LRUKey) (cap : Nat) (h : L.Nodup) :
    stateRepr (buildState L cap) L := by
  refine ⟨h, fun j => rfl, rfl, rfl, linkNodes_length none L, ?_⟩
  show ((linkNodes none L).map Prod.fst).Nodup
  rw [linkNodes_map_fst]
  exact h

theorem reachAux_linkNodes (L : List LRUKey) (c : List (LRUKey × LRUNode))
    (p : Option LRUKey) (fuel : Nat) (hnd : L.Nodup)
    (hag : ∀ j ∈ L, mget c j = mget (linkNodes p L) j) (hfuel : L.length ≤ fuel) :
    reachAux c L.head? fuel = L := by
  induction L generalizing p fuel with
  | nil => cases fuel <;> simp [reachAux]
  | cons h t ih =>
      cases fuel with
      | zero => simp at hfuel
      | succ f =>
          rw [List.nodup_cons] at hnd
          have hh : mget c h = some ⟨p, t.head?⟩ := by
            rw [hag h (by simp), mget_linkNodes_cons_self]
          have hstep : reachAux c (some h) (f + 1) = h :: reachAux c t.head? f := by
            simp [reachAux, hh]
          show reachAux c (some h) (f + 1) = h :: t
          rw [hstep, ih (some h) f hnd.2 ?_ (by simpa using hfuel)]
          intro j hj
          have hjh : h ≠ j := fun h' => hnd.1 (h' ▸ hj)
          rw [hag j (by simp [hj]), mget_linkNodes_cons_ne _ _ _ _ hjh]

theorem reachable_repr (s : LRUCacheState) (L : List LRUKey) (h : stateRepr s L) :
    reachable s = L := by
  obtain ⟨hnd, hag, hhead, htail, hlen, hknd⟩ := h
  rw [reachable, hhead, hlen]
  exact reachAux_linkNodes L s.cache none (L.length + 1) hnd (fun j _ => hag j) (by omega)

theorem mget_repr_ne_none_iff (s : LRUCacheState) (L : List LRUKey)
    (h : stateRepr s L) (j : LRUKey) : mget s.cache j ≠ none ↔ j ∈ L := by
  obtain ⟨hnd, hag, -, -, -, -⟩ := h
  rw [hag j]
  constructor
  · intro hne
    by_contra hj
    exact hne (mget_linkNodes_not_mem none L j hj)
  · intro hj hnone
    obtain ⟨C, D, rfl, hC, -⟩ := split_first_of_mem hj hnd
    rw [mget_linkNodes_append none C j D hC] at hnone
    exact Option.noConfusion hnone

/-- Evicting from a state representing a nonempty order `M` removes exactly
the last (least recently used) key, signals it, and represents `M.dropLast`. -/
theorem evictLRU_sim (s : LRUCacheState) (M : List LRUKey) (hM : M ≠ [])
    (h : stateRepr s M) :
    stateRepr (evictLRU s).fst M.dropLast ∧ (evictLRU s).snd = M.getLast? := by
  obtain ⟨hnd, hag, hhead, htail, hlen, hknd⟩ := h
  obtain ⟨N, t, rfl⟩ : ∃ N t, M = N ++ [t] := by
    rcases List.eq_nil_or_concat M with hnil | ⟨N, b, hc⟩
    · exact absurd hnil hM
    · exact ⟨N, b, by rw [hc, List.concat_eq_append]⟩
  have htail' : s.tail = some t := by rw [htail, List.getLast?_concat]
  have hndN : N.Nodup := (List.nodup_append.mp hnd).1
  have htN : t ∉ N := by
    intro ht
    exact (List.nodup_append.mp hnd).2.2 ht (by simp)
  have hnode : mget s.cache t = some ⟨N.getLast?.or none, ([] : List LRUKey).head?⟩ := by
    rw [hag t, mget_linkNodes_append none N t [] htN]
  have hmemT : mget s.cache t ≠ none := by simp [hnode]
  rcases List.eq_nil_or_concat N with hNnil | ⟨N', u, hNc⟩
  · subst hNnil
    have hres : evictLRU s =
        ({ cache := mdel s.cache t, head := none, tail := none,
           maxSize := s.maxSize }, some t) := by
      simp [evictLRU, htail', hnode]
    rw [hres, List.dropLast_concat, List.getLast?_concat]
    refine ⟨⟨List.nodup_nil, ?_, rfl, rfl, ?_, ?_⟩, rfl⟩
    · intro j
      rw [mget_mdel _ _ _ hknd]
      by_cases hj : t = j
      · simp [hj, linkNodes, mget]
      · rw [hag j]
        have hjm : j ∉ ([] : List LRUKey) ++ [t] := by
          simp
          exact fun h' => hj h'.symm
        rw [mget_linkNodes_not_mem _ _ _ hjm]
        simp [linkNodes, mget]
    · show (mdel s.cache t).length = ([] : List LRUKey).length
      have h1 := mdel_length_of_mem s.cache t hmemT
      rw [hlen] at h1
      simp only [List.nil_append, List.length_singleton] at h1
      simp only [List.length_nil]
      omega
    · rw [mdel_map_fst]
      exact hknd.erase t
  · have hN : N = N' ++ [u] := by rw [hNc, List.concat_eq_append]
    subst hN
    have hndN' : N'.Nodup := (List.nodup_append.mp hndN).1
    have huN' : u ∉ N' := by
      intro hu
      exact (List.nodup_append.mp hndN).2.2 hu (by simp)
    have htN' : t ∉ N' := fun ht => htN (by simp [ht])
    have htu : t ≠ u := fun h' => htN (by simp [h'])
    have hres : evictLRU s =
        ({ cache := setNext (mdel s.cache t) u none, head := s.head,
           tail := some u, maxSize := s.maxSize }, some t) := by
      simp [evictLRU, htail', hnode, List.getLast?_concat]
    rw [hres, List.dropLast_concat, List.getLast?_concat]
    have hasc : (N' ++ [u]) ++ [t] = N' ++ u :: [t] := by simp
    refine ⟨⟨hndN, ?_, ?_, ?_, ?_, ?_⟩, rfl⟩
    · intro j
      rw [mget_setNext, mget_mdel _ _ _ hknd]
      by_cases hju : u = j
      · subst hju
        have : ¬ t = u := htu
        rw [if_pos rfl, if_neg this, hag u]
        rw [hasc, mget_linkNodes_append none N' u [t] huN',
          mget_linkNodes_append none N' u [] huN']
        rfl
      · rw [if_neg hju]
        by_cases hjt : t = j
        · subst hjt
          rw [if_pos rfl, mget_linkNodes_not_mem]
          intro hmem
          rcases List.mem_append.mp hmem with hm | hm
          · exact htN' hm
          · exact htu (by simpa using hm)
        · rw [if_neg hjt, hag j]
          by_cases hjN : j ∈ N'
          · obtain ⟨C, D, hCD, hC, -⟩ := split_first_of_mem hjN hndN'
            subst hCD
            have h1 : ((C ++ j :: D) ++ [u]) ++ [t] = C ++ j :: (D ++ [u] ++ [t]) := by
              simp
            have h2 : (C ++ j :: D) ++ [u] = C ++ j :: (D ++ [u]) := by simp
            rw [h1, h2, mget_linkNodes_append none C j _ hC,
              mget_linkNodes_append none C j _ hC]
            have h3 : (D ++ [u] ++ [t]).head? = (D ++ [u]).head? := by
              rw [List.head?_append_of_ne_nil]
              simp
            rw [h3]
          · have hj1 : j ∉ (N' ++ [u]) ++ [t] := by
              simp only [List.mem_append, List.mem_singleton]
              push_neg
              exact ⟨⟨hjN, fun h' => hju h'.symm⟩, fun h' => hjt h'.symm⟩
            have hj2 : j ∉ N' ++ [u] := by
              simp only [List.mem_append, List.mem_singleton]
              push_neg
              exact ⟨hjN, fun h' => hju h'.symm⟩
            rw [mget_linkNodes_not_mem _ _ _ hj1, mget_linkNodes_not_mem _ _ _ hj2]
    · rw [hhead]
      rw [List.head?_append_of_ne_nil]
      simp
    · show some u = (N' ++ [u]).getLast?
      rw [List.getLast?_concat]
    · rw [setNext_length]
      have := mdel_length_of_mem s.cache t hmemT
      rw [hlen] at this
      simp only [List.length_append, List.length_singleton] at this ⊢
      omega
    · rw [setNext_map_fst, mdel_map_fst]
      exact hknd.erase t

theorem nodup_append_singleton {l : List LRUKey} {k : LRUKey} (h : l.Nodup) (hk : k ∉ l) :
    (l ++ [k]).Nodup := by
  rw [List.nodup_append]
  exact ⟨h, List.nodup_singleton k, fun a ha hak => hk ((List.mem_singleton.mp hak) ▸ ha)⟩

theorem access_sim (s : LRUCacheState) (L : List LRUKey) (k : LRUKey)
    (h : stateRepr s L) (hcap : L.length ≤ s.maxSize) :
    stateRepr (access s k).fst (orderAfter L k s.maxSize).fst ∧
      (access s k).snd = (orderAfter L k s.maxSize).snd := by
  obtain ⟨hnd, hag, hhead, htail, hlen, hknd⟩ := h
  by_cases hkL : k ∈ L
  · -- member path: moveToFront, no eviction
    obtain ⟨A, B, hL, hkA, hkB⟩ := split_first_of_mem hkL hnd
    subst hL
    have herase : (A ++ k :: B).erase k = A ++ B := by
      rw [List.erase_append_right _ hkA, List.erase_cons_head]
    have horder : orderAccess (A ++ k :: B) k = k :: (A ++ B) := by
      rw [orderAccess, if_pos hkL, herase]
    have hnotgt : ¬ (k :: (A ++ B)).length > s.maxSize := by
      simp only [List.length_append, List.length_cons] at hcap ⊢
      omega
    have hnodek : mget s.cache k = some ⟨A.getLast?.or none, B.head?⟩ := by
      rw [hag k, mget_linkNodes_append none A k B hkA]
    have hoa : orderAfter (A ++ k :: B) k s.maxSize = (k :: (A ++ B), none) := by
      rw [orderAfter]
      simp only [horder]
      rw [if_neg hnotgt]
    rw [hoa]
    simp only [access, hnodek]
    refine ⟨?_, by trivial⟩
    have hndA : A.Nodup := (List.nodup_append.mp hnd).1
    have hndKB : (k :: B).Nodup := (List.nodup_append.mp hnd).2.1
    have hndB : B.Nodup := (List.nodup_cons.mp hndKB).2
    have hdisj : A.Disjoint (k :: B) := (List.nodup_append.mp hnd).2.2
    have hAB : ∀ x ∈ A, x ∉ B := fun x hx hxB => hdisj hx (List.mem_cons.mpr (Or.inr hxB))
    cases A with
    | nil =>
        have hsk : s.head = some k := by simpa using hhead
        have hres : ∀ nd : LRUNode, moveToFront s k nd = s := by
          intro nd
          simp only [moveToFront]
          rw [if_pos hsk]
        rw [hres]
        exact ⟨hnd, hag, hhead, htail, hlen, hknd⟩
    | cons hd A' =>
        have hh : s.head = some hd := by simpa using hhead
        have hkhd : ¬ k = hd := fun h' => hkA (by simp [h'])
        have hneq : ¬ s.head = some k := by
          rw [hh]
          intro h'
          exact hkhd (Option.some.inj h').symm
        have hAne : (hd :: A') ≠ ([] : List LRUKey) := by simp
        obtain ⟨lastA, hlastA⟩ : ∃ x, (hd :: A').getLast? = some x :=
          ⟨_, List.getLast?_eq_getLast _ hAne⟩
        have hlastmem : lastA ∈ hd :: A' := List.mem_of_mem_getLast? hlastA
        have hklast : ¬ k = lastA := fun h' => hkA (h' ▸ hlastmem)
        have hprev : ((hd :: A').getLast?).or none = some lastA := by rw [hlastA]; rfl
        have hdA' : hd ∉ A' := (List.nodup_cons.mp hndA).1
        have hres : moveToFront s k ⟨((hd :: A').getLast?).or none, B.head?⟩ =
            { cache := setPrev (mset (setPrevOpt (setNext s.cache lastA B.head?) B.head?
                (some lastA)) k { prev := none, next := some hd }) hd (some k),
              head := some k,
              tail := if s.tail = some k then some lastA else s.tail,
              maxSize := s.maxSize } := by
          simp only [moveToFront]
          rw [if_neg hneq, hprev, hh]
        rw [hres]
        have hBk : ¬ B.head? = some k := by
          cases B with
          | nil => simp
          | cons nx B' =>
              intro h'
              have hnxk : nx = k := by simpa using h'
              exact hkB (List.mem_cons.mpr (Or.inl hnxk.symm))
        have hk2 : mget (setPrevOpt (setNext s.cache lastA B.head?) B.head? (some lastA)) k
            ≠ none := by
          rw [mget_setPrevOpt, mget_setNext, if_neg hBk, if_neg (fun h' => hklast h'.symm),
            hnodek]
          simp
        have hndM : (k :: ((hd :: A') ++ B)).Nodup := by
          rw [List.nodup_cons]
          constructor
          · rw [List.mem_append]
            rintro (h' | h')
            · exact hkA h'
            · exact hkB h'
          · exact List.nodup_append.mpr ⟨hndA, hndB, fun x hx hxB => hAB x hx hxB⟩
        refine ⟨hndM, ?_, rfl, ?_, ?_, ?_⟩
        · -- pointwise agreement with the canonical linked nodes
          intro j
          rw [mget_setPrev, mget_mset, mget_setPrevOpt, mget_setNext]
          by_cases hj1 : hd = j
          · subst hj1
            have hBhd : ¬ B.head? = some hd := by
              cases B with
              | nil => simp
              | cons nx B' =>
                  intro h'
                  have hnx : nx = hd := by simpa using h'
                  exact hAB hd (List.mem_cons.mpr (Or.inl rfl))
                    (List.mem_cons.mpr (Or.inl hnx.symm))
            rw [if_pos rfl, if_neg hkhd, if_neg hBhd,
              mget_linkNodes_cons_ne _ _ _ _ hkhd]
            simp only [List.cons_append]
            rw [mget_linkNodes_cons_self]
            cases A' with
            | nil =>
                have hlh0 : hd = lastA := by simpa using hlastA
                rw [if_pos hlh0.symm, hag hd]
                simp only [List.cons_append, List.nil_append]
                rw [mget_linkNodes_cons_self]
                rfl
            | cons a A'' =>
                have hlne : ¬ lastA = hd := by
                  rw [List.getLast?_cons_cons] at hlastA
                  have h2 : lastA ∈ a :: A'' := List.mem_of_mem_getLast? hlastA
                  exact fun h' => hdA' (h' ▸ h2)
                rw [if_neg hlne, hag hd]
                simp only [List.cons_append]
                rw [mget_linkNodes_cons_self]
                rfl
          · rw [if_neg hj1]
            by_cases hj2 : k = j
            · subst hj2
              rw [if_pos rfl, mget_linkNodes_cons_self]
              rfl
            · rw [if_neg hj2]
              by_cases hj3 : B.head? = some j
              · rw [if_pos hj3]
                cases B with
                | nil => simp at hj3
                | cons nx B' =>
                    have hnx : nx = j := by simpa using hj3
                    subst hnx
                    have hnxA : nx ∉ hd :: A' := fun hmem =>
                      hAB nx hmem (List.mem_cons.mpr (Or.inl rfl))
                    have hlnx : ¬ lastA = nx := fun h' => hnxA (h' ▸ hlastmem)
                    rw [if_neg hlnx, hag nx]
                    have hnm : nx ∉ (hd :: A') ++ [k] := by
                      rw [List.mem_append]
                      rintro (h' | h')
                      · exact hnxA h'
                      · exact hj2 ((by simpa using h' : nx = k)).symm
                    have hL2 : (hd :: A') ++ k :: nx :: B' =
                        ((hd :: A') ++ [k]) ++ nx :: B' := by simp
                    rw [hL2, mget_linkNodes_append none ((hd :: A') ++ [k]) nx B' hnm,
                      List.getLast?_concat,
                      mget_linkNodes_cons_ne _ _ _ _ hj2,
                      mget_linkNodes_append (some k) (hd :: A') nx B' hnxA,
                      hlastA]
                    rfl
              · rw [if_neg hj3]
                by_cases hj4 : lastA = j
                · subst hj4
                  rw [if_pos rfl, hag lastA]
                  cases A' with
                  | nil =>
                      have hlh0 : hd = lastA := by simpa using hlastA
                      exact absurd hlh0 hj1
                  | cons a A'' =>
                      obtain ⟨A1, w, hA1⟩ : ∃ A1 w, a :: A'' = A1 ++ [w] := by
                        rcases List.eq_nil_or_concat (a :: A'') with h' | ⟨A1, w, h'⟩
                        · exact absurd h' (by simp)
                        · exact ⟨A1, w, by rw [h', List.concat_eq_append]⟩
                      have hw : w = lastA := by
                        rw [List.getLast?_cons_cons, hA1, List.getLast?_concat] at hlastA
                        exact Option.some.inj hlastA
                      subst hw
                      rw [hA1]
                      have hndhd : (hd :: (A1 ++ [w])).Nodup := by rwa [hA1] at hndA
                      have hwA1 : w ∉ A1 := by
                        have h1 : (A1 ++ [w]).Nodup := (List.nodup_cons.mp hndhd).2
                        intro h'
                        exact (List.nodup_append.mp h1).2.2 h' (List.mem_cons.mpr (Or.inl rfl))
                      have hwhd : ¬ w = hd := fun h' => hj1 h'.symm
                      have hwnm1 : w ∉ hd :: A1 := by
                        rw [List.mem_cons]
                        rintro (h' | h')
                        · exact hwhd h'
                        · exact hwA1 h'
                      have hwnm2 : w ∉ k :: hd :: A1 := by
                        rw [List.mem_cons]
                        rintro (h' | h')
                        · exact hklast h'.symm
                        · exact hwnm1 h'
                      have hL3 : (hd :: (A1 ++ [w])) ++ k :: B =
                          (hd :: A1) ++ w :: (k :: B) := by simp
                      have hL4 : k :: ((hd :: (A1 ++ [w])) ++ B) =
                          (k :: hd :: A1) ++ w :: B := by simp
                      rw [hL3, mget_linkNodes_append none (hd :: A1) w (k :: B) hwnm1,
                        hL4, mget_linkNodes_append none (k :: hd :: A1) w B hwnm2,
                        List.getLast?_cons_cons]
                      rfl
                · rw [if_neg hj4, hag j]
                  by_cases hjA : j ∈ hd :: A'
                  · obtain ⟨C, D, hCD, hjC, hjD⟩ := split_first_of_mem hjA hndA
                    have hCne : C ≠ [] := by
                      intro h'
                      subst h'
                      have : hd = j := by simpa using congrArg List.head? hCD
                      exact hj1 this
                    have hDne : D ≠ [] := by
                      intro h'
                      subst h'
                      have hgl : (hd :: A').getLast? = some j := by
                        rw [hCD, List.getLast?_concat]
                      rw [hlastA] at hgl
                      exact hj4 (Option.some.inj hgl)
                    have hjkC : j ∉ k :: C := by
                      rw [List.mem_cons]
                      rintro (h' | h')
                      · exact hj2 h'.symm
                      · exact hjC h'
                    rw [hCD]
                    have hL5 : (C ++ j :: D) ++ k :: B = C ++ j :: (D ++ k :: B) := by simp
                    have hL6 : k :: ((C ++ j :: D) ++ B) = (k :: C) ++ j :: (D ++ B) := by
                      simp
                    rw [hL5, mget_linkNodes_append none C j (D ++ k :: B) hjC,
                      hL6, mget_linkNodes_append none (k :: C) j (D ++ B) hjkC,
                      List.head?_append_of_ne_nil D hDne,
                      List.head?_append_of_ne_nil D hDne,
                      getLast?_cons_of_ne_nil k C hCne]
                  · by_cases hjB : j ∈ B
                    · obtain ⟨E, F, hEF, hjE, hjF⟩ := split_first_of_mem hjB hndB
                      have hEne : E ≠ [] := by
                        intro h'
                        subst h'
                        have : B.head? = some j := by rw [hEF]; simp
                        exact hj3 this
                      have hjnm1 : j ∉ (hd :: A') ++ k :: E := by
                        intro hmem
                        rcases List.mem_append.mp hmem with h' | h'
                        · exact hjA h'
                        · rcases List.mem_cons.mp h' with h'' | h''
                          · exact hj2 h''.symm
                          · exact hjE h''
                      have hjnm2 : j ∉ (k :: (hd :: A')) ++ E := by
                        intro hmem
                        rcases List.mem_append.mp hmem with h' | h'
                        · rcases List.mem_cons.mp h' with h'' | h''
                          · exact hj2 h''.symm
                          · exact hjA h''
                        · exact hjE h'
                      have hL7 : (hd :: A') ++ k :: B = ((hd :: A') ++ k :: E) ++ j :: F := by
                        rw [hEF]
                        simp
                      have hL8 : k :: ((hd :: A') ++ B) =
                          ((k :: (hd :: A')) ++ E) ++ j :: F := by
                        rw [hEF]
                        simp
                      obtain ⟨eL, heL⟩ : ∃ x, E.getLast? = some x :=
                        ⟨_, List.getLast?_eq_getLast _ hEne⟩
                      rw [hL7, mget_linkNodes_append none ((hd :: A') ++ k :: E) j F hjnm1,
                        hL8, mget_linkNodes_append none ((k :: (hd :: A')) ++ E) j F hjnm2,
                        getLast?_append_cons, getLast?_cons_of_ne_nil k E hEne,
                        List.getLast?_append, heL]
                      rfl
                    · have hnm1 : j ∉ (hd :: A') ++ k :: B := by
                        intro hmem
                        rcases List.mem_append.mp hmem with h' | h'
                        · exact hjA h'
                        · rcases List.mem_cons.mp h' with h'' | h''
                          · exact hj2 h''.symm
                          · exact hjB h''
                      have hnm2 : j ∉ k :: ((hd :: A') ++ B) := by
                        intro hmem
                        rcases List.mem_cons.mp hmem with h' | h'
                        · exact hj2 h'.symm
                        · rcases List.mem_append.mp h' with h'' | h''
                          · exact hjA h''
                          · exact hjB h''
                      rw [mget_linkNodes_not_mem _ _ _ hnm1, mget_linkNodes_not_mem _ _ _ hnm2]
        · -- tail
          show (if s.tail = some k then some lastA else s.tail) =
            (k :: ((hd :: A') ++ B)).getLast?
          cases B with
          | nil =>
              have hst : s.tail = some k := by
                rw [htail, getLast?_append_cons]
                rfl
              rw [if_pos hst, getLast?_cons_of_ne_nil k ((hd :: A') ++ []) (by simp),
                List.append_nil, hlastA]
          | cons nx B' =>
              have hTL : ((hd :: A') ++ k :: nx :: B').getLast? = (nx :: B').getLast? := by
                rw [getLast?_append_cons, List.getLast?_cons_cons]
              obtain ⟨lastB, hlastB⟩ : ∃ x, (nx :: B').getLast? = some x :=
                ⟨_, List.getLast?_eq_getLast _ (by simp)⟩
              have hlastBmem : lastB ∈ nx :: B' := List.mem_of_mem_getLast? hlastB
              have hst : s.tail = some lastB := by rw [htail, hTL, hlastB]
              have hstk : ¬ s.tail = some k := by
                rw [hst]
                intro h'
                exact hkB ((Option.some.inj h') ▸ hlastBmem)
              rw [if_neg hstk, hst, getLast?_cons_of_ne_nil k _ (by simp),
                getLast?_append_cons, hlastB]
        · -- length
          show (setPrev (mset (setPrevOpt (setNext s.cache lastA B.head?) B.head?
              (some lastA)) k { prev := none, next := some hd }) hd (some k)).length =
            (k :: ((hd :: A') ++ B)).length
          rw [setPrev_length, mset_length_of_mem _ _ _ hk2, setPrevOpt_length,
            setNext_length, hlen]
          simp only [List.length_append, List.length_cons]
          omega
        · -- keys nodup
          show ((setPrev (mset (setPrevOpt (setNext s.cache lastA B.head?) B.head?
              (some lastA)) k { prev := none, next := some hd }) hd (some k)).map
              Prod.fst).Nodup
          rw [setPrev_map_fst, mset_map_fst_of_mem _ _ _ hk2, setPrevOpt_map_fst,
            setNext_map_fst]
          exact hknd
  · -- insert path
    have hmemk : mget s.cache k = none := by
      rw [hag k]; exact mget_linkNodes_not_mem none L k hkL
    cases L with
    | nil =>
        have hh : s.head = none := hhead
        have ht : s.tail = none := htail
        have hl2 : (mset s.cache k { prev := none, next := none }).length = 1 := by
          rw [mset_length_of_not_mem s.cache k _ hmemk, hlen]
          rfl
        have hrep2 : stateRepr
            { cache := mset s.cache k { prev := none, next := none },
              head := some k, tail := some k, maxSize := s.maxSize } [k] := by
          refine ⟨List.nodup_singleton k, ?_, rfl, rfl, by simpa using hl2, ?_⟩
          · intro j
            rw [mget_mset]
            by_cases hj : k = j
            · subst hj
              rw [if_pos rfl, mget_linkNodes_cons_self]
              rfl
            · rw [if_neg hj, hag j, mget_linkNodes_not_mem, mget_linkNodes_not_mem]
              · simp
                exact fun h' => hj h'.symm
              · simp
          · show ((mset s.cache k _).map Prod.fst).Nodup
            rw [mset_map_fst_of_not_mem s.cache k _ hmemk]
            have : s.cache = [] := List.length_eq_zero.mp hlen
            rw [this]
            simp
        simp only [access, hmemk, hh, ht, hl2, orderAfter, orderAccess]
        simp only [List.not_mem_nil, if_false, List.length_cons, List.length_nil]
        by_cases hc : 0 + 1 > s.maxSize
        · rw [if_pos hc, if_pos hc]
          have := evictLRU_sim _ [k] (by simp) hrep2
          simpa using this
        · rw [if_neg hc, if_neg hc]
          exact ⟨hrep2, rfl⟩
    | cons hd rest =>
        have hh : s.head = some hd := hhead
        have hknone : ¬ s.tail = none := by
          rw [htail]
          simp [List.getLast?_eq_none_iff]
        have hkhd : k ≠ hd := fun h' => hkL (by simp [h'])
        have hkrest : k ∉ rest := fun h' => hkL (by simp [h'])
        have hhdk : ¬ hd = k := fun h' => hkhd h'.symm
        have hmemc1 : mget (setPrev s.cache hd (some k)) k = none := by
          rw [mget_setPrev, if_neg hhdk]
          exact hmemk
        have hl2 : (mset (setPrev s.cache hd (some k)) k
            { prev := none, next := some hd }).length = (hd :: rest).length + 1 := by
          rw [mset_length_of_not_mem _ k _ hmemc1, setPrev_length, hlen]
        have hrep2 : stateRepr
            { cache := mset (setPrev s.cache hd (some k)) k { prev := none, next := some hd },
              head := some k, tail := s.tail, maxSize := s.maxSize } (k :: hd :: rest) := by
          refine ⟨List.nodup_cons.mpr ⟨hkL, hnd⟩, ?_, rfl, ?_, ?_, ?_⟩
          · intro j
            rw [mget_mset, mget_setPrev]
            by_cases hj : k = j
            · subst hj
              rw [if_pos rfl, mget_linkNodes_cons_self]
              rfl
            · rw [if_neg hj]
              by_cases hj2 : hd = j
              · subst hj2
                rw [if_pos rfl, hag hd, mget_linkNodes_cons_self,
                  mget_linkNodes_cons_ne _ _ _ _ hj,
                  mget_linkNodes_cons_self]
                rfl
              · rw [if_neg hj2, hag j,
                  mget_linkNodes_cons_ne _ _ _ _ hj2,
                  mget_linkNodes_cons_ne _ _ _ _ hj,
                  mget_linkNodes_cons_ne _ _ _ _ hj2]
          · show s.tail = (k :: hd :: rest).getLast?
            rw [htail, List.getLast?_cons_cons]
          · show (mset (setPrev s.cache hd (some k)) k
              { prev := none, next := some hd }).length = (k :: hd :: rest).length
            rw [hl2]
            rfl
          · show ((mset (setPrev s.cache hd (some k)) k _).map Prod.fst).Nodup
            rw [mset_map_fst_of_not_mem _ k _ hmemc1, setPrev_map_fst]
            exact nodup_append_singleton hknd ((mget_eq_none_iff _ _).mp hmemk)
        simp only [access, hmemk, hh]
        rw [if_neg hknone, hl2]
        simp only [orderAfter, orderAccess, if_neg hkL, List.length_cons]
        by_cases hc : rest.length + 1 + 1 > s.maxSize
        · rw [if_pos hc, if_pos hc]
          have := evictLRU_sim _ (k :: hd :: rest) (by simp) hrep2
          exact this
        · rw [if_neg hc, if_neg hc]
          exact ⟨hrep2, rfl⟩



/-! ### Durable store (the IndexedDB object store, keyed by `prefix`)

`CacheEntry.prefix` is a Lean keyword, so the field is called `pfx`; the
other two fields keep the source's names. -/

/-- Record `CacheEntry` — one durable record per digest piece. -/
structure CacheEntry where
  pfx : List Char
  hashes : List (List Char)
  timestamp : Int
deriving DecidableEq, Repr

/-- Model of `store.get` on the object store. -/
def sget : List CacheEntry → List Char → Option CacheEntry
  | [], _ => none
  | e :: rest, k => if e.pfx = k then some e else sget rest k

/-- Model of `store.put(entry)` — upsert keyed by `entry.pfx`. -/
def sput : List CacheEntry → CacheEntry → List CacheEntry
  | [], e => [e]
  | e' :: rest, e => if e'.pfx = e.pfx then e :: rest else e' :: sput rest e

/-- Model of the store's delete operation — idempotent removal. -/
def sdel : List CacheEntry → List Char → List CacheEntry
  | [], _ => []
  | e :: rest, k => if e.pfx = k then sdel rest k else e :: sdel rest k

/-- Model of `getCacheEntry` (`breach.ts:244-275`): `none` when no record
exists; a record with `now - timestamp > CACHE_TTL_MS` is deleted and
reported absent; an unexpired record is returned with the store untouched;
when IndexedDB is unavailable the `catch` yields `none` and the store is
untouched.  Returns the result together with the store after the call. -/
def getCacheEntry (avail : Bool) (now : Int) (st : List CacheEntry) (k : List Char) :
    Option CacheEntry × List CacheEntry :=
  if avail then
    match sget st k with
    | none => (none, st)
    | some e => if now - e.timestamp > CACHE_TTL_MS then (none, sdel st k) else (some e, st)
  else (none, st)

/-- Model of `setCacheEntry(entry)` (`breach.ts:280-289`) — upsert; the `catch`
makes it a no-op when the backing store is unavailable. -/
def setCacheEntry (avail : Bool) (st : List CacheEntry) (e : CacheEntry) : List CacheEntry :=
  if avail then sput st e else st

/-- Model of `BreachChecker.initDB` (`breach.ts:205-215`): returns the `dbReady`
flag after the call together with the number of `indexedDB.open` attempts
this call makes.  `dbReady` short-circuits; otherwise one open attempt is
made and only success sets `dbReady`. -/
def initDB (dbReady : Bool) (avail : Bool) : Bool × Nat :=
  if dbReady then (dbReady, 0)
  else if avail then (true, 1) else (false, 1)

/-- Model of `BreachChecker.clearCache` (`breach.ts:462-472`): on an available
backing store, `store.clear()` empties the durable store and the volatile
cache is replaced by a fresh `LRUCache`; when `openDB` rejects, the
`catch` is entered before either happens, so both are left untouched.
Total — the `catch` swallows every error. -/
def clearCache (avail : Bool) (st : List CacheEntry) (lru : LRUCacheState) :
    List CacheEntry × LRUCacheState :=
  if avail then ([], emptyLRU MAX_CACHE_SIZE) else (st, lru)

/-! ### Remote lookup client (`fetchFromHIBP`) -/

/-- Outcome of one `fetch()` call, decided by the environment: a rejection
with a generic network error, a rejection with `AbortError` (the timeout
fired), or a response with a status and body. -/
inductive FetchOutcome where
  | transportError
  | abortError
  | response (status : Nat) (body : List Char)
deriving DecidableEq, Repr

/-- The errors `fetchFromHIBP` can throw. -/
inductive FetchErr where
  | aborted
  | apiError (status : Nat)
  | transport
  | exhausted
deriving DecidableEq, Repr

/-- Test for `response.ok` — status in `200..299`. -/
def statusOk (status : Nat) : Bool := 200 ≤ status && status ≤ 299

/-- ASCII whitespace for `String.prototype.trim`. -/
def isWS (c : Char) : Bool :=
  c = ' ' || c = '\t' || c = '\r' || c = '\n'

/-- Model of `line.trim()`. -/
def trimChars (l : List Char) : List Char :=
  ((l.dropWhile isWS).reverse.dropWhile isWS).reverse

/-- Parse the response body (`breach.ts:343-347`): split on newlines, take
the part of each line before the first `:`, trim it, and drop empties
(`filter(Boolean)`); malformed lines are skipped, never fatal. -/
def parseHashes (body : List Char) : List (List Char) :=
  ((body.splitOn '\n').map fun line => trimChars ((line.splitOn ':').headD [])).filter
    fun h => !h.isEmpty

/-- The retry loop of `fetchFromHIBP` (`breach.ts:315-364`): `net i` is the
outcome of the `i`-th `fetch()` call; `remaining` counts the attempts left
out of `MAX_RETRIES`.  Each iteration issues exactly one `fetch`.  A 2xx
response returns the parsed bucket; 429 backs off and retries without
recording an error; another non-2xx records `HIBP API error` and retries;
a transport rejection records it and retries; an `AbortError` breaks out
and is rethrown.  On exhaustion the recorded error is thrown, or
`Failed to fetch from HIBP` (`exhausted`) when none was recorded.  The
second component counts the network requests issued. -/
def fetchAttempts (net : Nat → FetchOutcome) : Nat → Nat → Option FetchErr → Nat →
    Except FetchErr (List (List Char)) × Nat
  | _, 0, lastError, reqs => (.error (lastError.getD .exhausted), reqs)
  | attempt, remaining + 1, lastError, reqs =>
      match net attempt with
      | .response status body =>
          if statusOk status then (.ok (parseHashes body), reqs + 1)
          else if status = 429 then fetchAttempts net (attempt + 1) remaining lastError (reqs + 1)
          else fetchAttempts net (attempt + 1) remaining (some (.apiError status)) (reqs + 1)
      | .transportError => fetchAttempts net (attempt + 1) remaining (some .transport) (reqs + 1)
      | .abortError => (.error .aborted, reqs + 1)

/-- Model of `fetchFromHIBP` — result and number of requests issued. -/
def fetchFromHIBP (net : Nat → FetchOutcome) : Except FetchErr (List (List Char)) × Nat :=
  fetchAttempts net 0 MAX_RETRIES none 0

/-- The URL of each network request: `HIBP_API_URL + prefix`
(`breach.ts:324`) — a function of the 5-character digest piece alone. -/
def requestURL (pfx5 : List Char) : List Char := HIBP_API_URL ++ pfx5

/-- The request headers (`breach.ts:326-328`) — a constant; no user data. -/
def requestHeaders : List (List Char × List Char) :=
  [("User-Agent".data, "password-kit".data)]

/-! ### Breach checker orchestrator -/

/-- Result type `BreachResult`; absent optional fields are `none`. -/
structure BreachResult where
  checked : Bool
  breached : Option Bool
  count : Option Nat := none
  offline : Option Bool := none
  cached : Option Bool := none
deriving DecidableEq, Repr

/-- Options type `BreachCheckOptions`; absent fields are `none` (defaulted in
`checkPassword` to `allowNetwork = true`, `timeout = 5000`). -/
structure BreachCheckOptions where
  allowNetwork : Option Bool := none
  timeout : Option Nat := none
deriving DecidableEq, Repr

/-- The result every offline/failure path returns (`breach.ts:405-419` and
`442-449`). -/
def offlineResult : BreachResult :=
  { checked := false, breached := none, offline := some true }

/-- The result built by the outer `catch` for unexpected errors
(`breach.ts:450-456`) — no `offline` flag. -/
def unexpectedResult : BreachResult := { checked := false, breached := none }

/-- The host environment of one run: IndexedDB availability, `typeof
fetch` availability, the network oracle, and `Date.now()`. -/
structure Env where
  dbAvailable : Bool
  fetchAvailable : Bool
  net : Nat → FetchOutcome
  now : Int

/-- Observable outcome of one `checkPassword` run: the returned
`BreachResult`, the durable store and volatile cache afterwards, the
number of `fetch()` invocations, and the request URLs sent. -/
structure CheckRun where
  result : BreachResult
  store : List CacheEntry
  lru : LRUCacheState
  fetchCalls : Nat
  sent : List (List Char)

/-- The volatile-cache touch plus the durable deletion its eviction signal
triggers (`this.lruCache.access(prefix)` with `removeFromDB`). -/
def volatileStep (env : Env) (st : List CacheEntry) (lru : LRUCacheState)
    (pfx5 : List Char) : LRUCacheState × List CacheEntry :=
  let acc := access lru pfx5
  (acc.fst, match acc.snd with
    | some ev => if env.dbAvailable then sdel st ev else st
    | none => st)

/-- The durable-store probe of `checkPassword`
(`const cached = await this.getCacheEntry(prefix)`). -/
def probeStep (env : Env) (st : List CacheEntry) (lru : LRUCacheState)
    (pfx5 : List Char) : Option CacheEntry × List CacheEntry :=
  getCacheEntry env.dbAvailable env.now (volatileStep env st lru pfx5).snd pfx5

/-- Model of `BreachChecker.checkPassword` (`breach.ts:372-457`).  The body never
reaches the outer `catch` in this model (every fallible step is already
caught inside), so the function is total; `unexpectedResult` is what that
`catch` would return. -/
def checkPassword (env : Env) (st : List CacheEntry) (lru : LRUCacheState)
    (password : String) (opts : BreachCheckOptions) : CheckRun :=
  let allowNetwork := opts.allowNetwork.getD true
  let hash := sha1HexUpper password
  let pfx5 := hash.take 5
  let sfx := hash.drop 5
  let lru' := (volatileStep env st lru pfx5).fst
  let probe := probeStep env st lru pfx5
  match probe.fst with
  | some e =>
      let breached := e.hashes.contains sfx
      { result := { checked := true, breached := some breached,
                    count := if breached then some 1 else none,
                    cached := some true },
        store := probe.snd, lru := lru', fetchCalls := 0, sent := [] }
  | none =>
      if !allowNetwork then
        { result := offlineResult, store := probe.snd, lru := lru',
          fetchCalls := 0, sent := [] }
      else if !env.fetchAvailable then
        { result := offlineResult, store := probe.snd, lru := lru',
          fetchCalls := 0, sent := [] }
      else
        let fr := fetchFromHIBP env.net
        let sent := List.replicate fr.snd (requestURL pfx5)
        match fr.fst with
        | .ok hashes =>
            let entry : CacheEntry := { pfx := pfx5, hashes := hashes, timestamp := env.now }
            let st1 := setCacheEntry env.dbAvailable probe.snd entry
            let breached := hashes.contains sfx
            { result := { checked := true, breached := some breached,
                          count := if breached then some 1 else none,
                          cached := some false },
              store := st1, lru := lru', fetchCalls := fr.snd, sent := sent }
        | .error _ =>
            { result := offlineResult, store := probe.snd, lru := lru',
              fetchCalls := fr.snd, sent := sent }

/-- Public `checkPasswordBreach` — delegates to the singleton checker. -/
def checkPasswordBreach (env : Env) (st : List CacheEntry) (lru : LRUCacheState)
    (password : String) (opts : BreachCheckOptions) : CheckRun :=
  checkPassword env st lru password opts


/-! ### Digest facts -/

theorem sha1Bytes_length (msg : List Nat) : (sha1Bytes msg).length = 20 := by
  unfold sha1Bytes
  rcases sha1Words msg with ⟨a, b, c, d, e⟩
  simp [wordToBytes]

theorem wordToBytes_lt (w : Nat) : ∀ b ∈ wordToBytes w, b < 256 := by
  intro b hb
  simp only [wordToBytes, List.mem_cons, List.not_mem_nil, or_false] at hb
  rcases hb with h | h | h | h <;> subst h <;> exact Nat.mod_lt _ (by omega)

theorem sha1Bytes_lt (msg : List Nat) : ∀ b ∈ sha1Bytes msg, b < 256 := by
  unfold sha1Bytes
  rcases sha1Words msg with ⟨a, b, c, d, e⟩
  intro x hx
  simp only [List.mem_append] at hx
  rcases hx with (((h | h) | h) | h) | h <;> exact wordToBytes_lt _ x h

theorem bytesToHex_length (bs : List Nat) : (bytesToHex bs).length = 2 * bs.length := by
  induction bs with
  | nil => rfl
  | cons b rest ih =>
      simp only [bytesToHex, List.length_cons, ih]
      omega

theorem bytesToHex_hex (bs : List Nat) (hb : ∀ b ∈ bs, b < 256) :
    ∀ c ∈ bytesToHex bs, ∃ n, n < 16 ∧ c = hexCharLower n := by
  induction bs with
  | nil => intro c hc; simp [bytesToHex] at hc
  | cons b rest ih =>
      intro c hc
      have hblt : b < 256 := hb b (List.mem_cons.mpr (Or.inl rfl))
      simp only [bytesToHex, List.mem_cons] at hc
      rcases hc with h | h | h
      · exact ⟨b / 16, by omega, h⟩
      · exact ⟨b % 16, by omega, h⟩
      · exact ih (fun x hx => hb x (List.mem_cons.mpr (Or.inr hx))) c h

/-- Recogniser for the characters an upper-cased hex digest can contain. -/
def isHexUpper (c : Char) : Bool :=
  (decide ('0' ≤ c) && decide (c ≤ '9')) || (decide ('A' ≤ c) && decide (c ≤ 'F'))

theorem hexCharLower_upper_hex :
    ∀ n < 16, isHexUpper (Char.toUpper (hexCharLower n)) = true := by decide

theorem sha1HexUpper_hex (p : String) : ∀ c ∈ sha1HexUpper p, isHexUpper c = true := by
  intro c hc
  unfold sha1HexUpper at hc
  rcases List.mem_map.mp hc with ⟨c', hc', rfl⟩
  obtain ⟨n, hn, rfl⟩ := bytesToHex_hex _ (sha1Bytes_lt _) c' hc'
  exact hexCharLower_upper_hex n hn

theorem sha1HexUpper_length (p : String) : (sha1HexUpper p).length = 40 := by
  unfold sha1HexUpper
  rw [List.length_map, bytesToHex_length, sha1Bytes_length]

theorem hashPfx_length (p : String) : (hashPfx p).length = 5 := by
  rw [hashPfx, List.length_take, sha1HexUpper_length]
  omega

/-! ### Substring occurrence -/

/-- Test that `needle` begins `hay`. -/
def beginsWith : List Char → List Char → Bool
  | [], _ => true
  | _ :: _, [] => false
  | a :: as, b :: bs => a == b && beginsWith as bs

/-- Test that `needle` occurs contiguously somewhere in `hay`. -/
def occursIn (needle : List Char) : List Char → Bool
  | [] => beginsWith needle []
  | c :: rest => beginsWith needle (c :: rest) || occursIn needle rest

theorem beginsWith_iff (n : List Char) : ∀ l, beginsWith n l = true ↔ ∃ t, l = n ++ t := by
  induction n with
  | nil => intro l; simp [beginsWith]
  | cons a as ih =>
      intro l
      cases l with
      | nil =>
          simp [beginsWith]
      | cons b bs =>
          rw [show beginsWith (a :: as) (b :: bs) = (a == b && beginsWith as bs) from rfl,
            Bool.and_eq_true, beq_iff_eq, ih bs]
          constructor
          · rintro ⟨rfl, t, rfl⟩
            exact ⟨t, rfl⟩
          · rintro ⟨t, ht⟩
            rw [List.cons_append] at ht
            obtain ⟨h1, h2⟩ := List.cons.inj ht
            exact ⟨h1.symm, t, h2⟩

theorem occursIn_exists (n : List Char) :
    ∀ h, occursIn n h = true → ∃ s t, h = s ++ n ++ t := by
  intro h
  induction h with
  | nil =>
      intro ho
      rw [show occursIn n [] = beginsWith n [] from rfl, beginsWith_iff] at ho
      obtain ⟨t, ht⟩ := ho
      rcases List.append_eq_nil.mp ht.symm with ⟨rfl, rfl⟩
      exact ⟨[], [], rfl⟩
  | cons c rest ih =>
      intro ho
      rw [show occursIn n (c :: rest) = (beginsWith n (c :: rest) || occursIn n rest)
        from rfl, Bool.or_eq_true] at ho
      rcases ho with hb | ho
      · obtain ⟨t, ht⟩ := (beginsWith_iff n (c :: rest)).mp hb
        exact ⟨[], t, by simpa using ht⟩
      · obtain ⟨s, t, hst⟩ := ih ho
        exact ⟨c :: s, t, by simp [hst]⟩

theorem beginsWith_false_of_longer (n : List Char) :
    ∀ l, l.length < n.length → beginsWith n l = false := by
  induction n with
  | nil => intro l h; simp at h
  | cons a as ih =>
      intro l h
      cases l with
      | nil => rfl
      | cons b bs =>
          rw [show beginsWith (a :: as) (b :: bs) = (a == b && beginsWith as bs) from rfl,
            ih bs (by simpa using h), Bool.and_false]

theorem occursIn_false_of_longer (n : List Char) :
    ∀ h, h.length < n.length → occursIn n h = false := by
  intro h
  induction h with
  | nil =>
      intro hlt
      cases n with
      | nil => simp at hlt
      | cons a as => rfl
  | cons c rest ih =>
      intro hlt
      rw [show occursIn n (c :: rest) = (beginsWith n (c :: rest) || occursIn n rest)
        from rfl, beginsWith_false_of_longer n _ hlt,
        ih (by simp at hlt ⊢; omega), Bool.or_false]

/-- A 40-character all-hex needle cannot occur in `HIBP_API_URL ++ t` for a
5-character tail: the URL byte at index 5 is `':'`, every occurrence window
covers it, and `':'` is not a hex digit. -/
theorem digest_not_in_request (d t : List Char) (hd40 : d.length = 40)
    (hhex : ∀ c ∈ d, isHexUpper c = true) (ht5 : t.length = 5) :
    occursIn d (HIBP_API_URL ++ t) = false := by
  have hurl : HIBP_API_URL.length = 37 := by decide
  by_contra hocc
  rw [Bool.not_eq_false] at hocc
  obtain ⟨s, u, hsu⟩ := occursIn_exists d _ hocc
  have hlen := congrArg List.length hsu
  rw [List.length_append, List.length_append, List.length_append, hurl, hd40, ht5] at hlen
  have h5 : (HIBP_API_URL ++ t)[5]? = some ':' := by
    rw [List.getElem?_append, if_pos (by rw [hurl]; omega)]
    decide
  rw [hsu] at h5
  have hsd : 5 < (s ++ d).length := by
    rw [List.length_append, hd40]
    omega
  rw [List.getElem?_append, if_pos hsd, List.getElem?_append_right (by omega)] at h5
  have hlt : 5 - s.length < d.length := by rw [hd40]; omega
  rw [List.getElem?_eq_getElem hlt] at h5
  have hc : d[5 - s.length] = ':' := Option.some.inj h5
  have hmem : d[5 - s.length] ∈ d := List.getElem_mem hlt
  have hish := hhex _ hmem
  rw [hc] at hish
  exact absurd hish (by decide)

/-- Every `sent` request URL of a run is the endpoint plus the digest
piece of the checked password. -/
theorem checkPassword_sent_all (env : Env) (st : List CacheEntry) (lru : LRUCacheState)
    (p : String) (opts : BreachCheckOptions) :
    ∀ r ∈ (checkPassword env st lru p opts).sent, r = requestURL (hashPfx p) := by
  simp only [checkPassword]
  generalize hDp : sha1HexUpper p = Dp
  have hh : hashPfx p = Dp.take 5 := by rw [hashPfx, hDp]
  rw [hh]
  cases hpro : (probeStep env st lru (Dp.take 5)).fst with
  | some e => intro r hr; simp at hr
  | none =>
      cases opts.allowNetwork.getD true with
      | false => intro r hr; simp at hr
      | true =>
          cases env.fetchAvailable with
          | false => intro r hr; simp at hr
          | true =>
              cases (fetchFromHIBP env.net).fst with
              | ok hs =>
                  intro r hr
                  simp only [Bool.not_true, Bool.false_eq_true, if_false,
                    List.mem_replicate] at hr
                  exact hr.2
              | error err =>
                  intro r hr
                  simp only [Bool.not_true, Bool.false_eq_true, if_false,
                    List.mem_replicate] at hr
                  exact hr.2

/-- The bytes sent depend on the password only through its digest piece. -/
theorem checkPassword_sent_congr (env : Env) (st : List CacheEntry) (lru : LRUCacheState)
    (opts : BreachCheckOptions) (p q : String) (h : hashPfx q = hashPfx p) :
    (checkPassword env st lru q opts).sent = (checkPassword env st lru p opts).sent := by
  have h' : (sha1HexUpper q).take 5 = (sha1HexUpper p).take 5 := h
  simp only [checkPassword]
  generalize hDq : sha1HexUpper q = Dq at h' ⊢
  generalize hDp : sha1HexUpper p = Dp at h' ⊢
  rw [h']
  cases hpro : (probeStep env st lru (Dp.take 5)).fst with
  | some e => rfl
  | none =>
      cases opts.allowNetwork.getD true with
      | false => simp
      | true =>
          cases env.fetchAvailable with
          | false => simp
          | true =>
              cases (fetchFromHIBP env.net).fst with
              | ok hs => simp
              | error err => simp

/-- C1 (amended): the bytes sent to the remote lookup client carry only
the 5-character digest piece: every request URL of a run equals the
constant endpoint followed by that piece, so the bytes are a function of
the piece alone (identical for any password sharing it); the full digest
(prefix+suffix) never occurs in the URL, nor in the constant headers.
(The raw password influences the bytes only through the 5-character piece;
a password that coincidentally equals constant URL text, such as
`"range"`, can still appear verbatim — see the counterexample.) -/
theorem C1_request_privacy (env : Env) (st : List CacheEntry) (lru : LRUCacheState)
    (p : String) (opts : BreachCheckOptions) :
    (∀ r ∈ (checkPassword env st lru p opts).sent, r = requestURL (hashPfx p)) ∧
    occursIn (sha1HexUpper p) (requestURL (hashPfx p)) = false ∧
    (∀ hk ∈ requestHeaders, occursIn (sha1HexUpper p) hk.fst = false ∧
      occursIn (sha1HexUpper p) hk.snd = false) ∧
    (∀ q, hashPfx q = hashPfx p →
      (checkPassword env st lru q opts).sent = (checkPassword env st lru p opts).sent) := by
  refine ⟨checkPassword_sent_all env st lru p opts, ?_, ?_, ?_⟩
  · exact digest_not_in_request _ _ (sha1HexUpper_length p) (sha1HexUpper_hex p)
      (hashPfx_length p)
  · intro hk hmem
    simp only [requestHeaders, List.mem_singleton] at hmem
    subst hmem
    constructor
    · apply occursIn_false_of_longer
      rw [sha1HexUpper_length]
      decide
    · apply occursIn_false_of_longer
      rw [sha1HexUpper_length]
      decide
  · intro q hq
    exact checkPassword_sent_congr env st lru opts p q hq

/-- C1 counterexample to the literal "the raw password never appears in
the bytes sent": the characters of the password `"range"` occur verbatim
in the request URL — they are part of the constant endpoint text, not a
leak of password data. -/
theorem C1_counterexample :
    occursIn "range".data (requestURL (hashPfx "range")) = true := by decide

/-- C9: the digest of a password is a pure total function —
recomputation yields the same 160-bit (40 hex character) value — whose
`prefix` is exactly its first 5 hex characters (20 bits) and whose
`suffix` is exactly the remaining 35; determinism and freedom from side
effects hold by construction, the embedding being a function of the
password alone. -/
theorem C9_digest_pure_split (p : String) :
    (sha1HexUpper p).length = 40 ∧
    hashPfx p = (sha1HexUpper p).take 5 ∧
    hashSfx p = (sha1HexUpper p).drop 5 ∧
    (hashPfx p).length = 5 ∧ (hashSfx p).length = 35 ∧
    hashPfx p ++ hashSfx p = sha1HexUpper p ∧
    (∀ c ∈ sha1HexUpper p, isHexUpper c = true) := by
  refine ⟨sha1HexUpper_length p, rfl, rfl, hashPfx_length p, ?_,
    List.take_append_drop 5 _, sha1HexUpper_hex p⟩
  rw [hashSfx, List.length_drop, sha1HexUpper_length]


/-! ### Claim theorems on the orchestrator and stores -/

/-- C2: when the durable probe misses, network use is allowed and a fetch
transport exists, every operational failure of the lookup — a transport
error after the retries, a timeout abort, a non-2xx hard failure after the
retries, or exhaustion of the 429 throttling retry budget (every
`FetchErr`) — resolves the call to
`{checked := false, breached := none, offline := true}`; no exception
reaches the caller, the run being a total function into `BreachResult`. -/
theorem C2_failures_resolve_offline (env : Env) (st : List CacheEntry)
    (lru : LRUCacheState) (p : String) (opts : BreachCheckOptions) (err : FetchErr)
    (hmiss : (probeStep env st lru (hashPfx p)).fst = none)
    (hnet : opts.allowNetwork.getD true = true)
    (hfa : env.fetchAvailable = true)
    (herr : (fetchFromHIBP env.net).fst = .error err) :
    (checkPassword env st lru p opts).result = offlineResult := by
  simp only [checkPassword]
  generalize hDp : sha1HexUpper p = Dp
  rw [hashPfx, hDp] at hmiss
  rw [hmiss, hnet, hfa]
  simp only [Bool.not_true, Bool.false_eq_true, if_false]
  rw [herr]

/-- Concrete environment: no durable backing, network present but every
request rejects with a transport error. -/
def envW2 : Env :=
  { dbAvailable := false, fetchAvailable := true, net := fun _ => .transportError, now := 0 }

/-- C1 witness: at a concrete run, the digest never occurs in the request
URL, and the bytes sent for a password equal those of any password with
the same digest piece. -/
theorem C1_witness :
    occursIn (sha1HexUpper "password") (requestURL (hashPfx "password")) = false ∧
    (checkPassword envW2 [] (emptyLRU MAX_CACHE_SIZE) "password" {}).sent =
      (checkPassword envW2 [] (emptyLRU MAX_CACHE_SIZE) "password" {}).sent :=
  ⟨(C1_request_privacy envW2 [] (emptyLRU MAX_CACHE_SIZE) "password" {}).2.1,
   (C1_request_privacy envW2 [] (emptyLRU MAX_CACHE_SIZE) "password" {}).2.2.2
     "password" rfl⟩

/-- C2 witness: a concrete failing run returns the offline result. -/
theorem C2_witness :
    (checkPassword envW2 [] (emptyLRU MAX_CACHE_SIZE) "password" {}).result =
      offlineResult :=
  C2_failures_resolve_offline envW2 [] (emptyLRU MAX_CACHE_SIZE) "password" {}
    .transport (by decide) rfl rfl rfl

/-- C5: with `{allowNetwork := false}` and no unexpired durable entry for
the password's digest piece, `checkPassword` returns
`{checked := false, breached := none, offline := true}` and performs zero
network fetch invocations (no request bytes are sent at all). -/
theorem C5_offline_mode_no_fetch (env : Env) (st : List CacheEntry)
    (lru : LRUCacheState) (p : String)
    (hmiss : (probeStep env st lru (hashPfx p)).fst = none) :
    (checkPassword env st lru p { allowNetwork := some false }).result = offlineResult ∧
    (checkPassword env st lru p { allowNetwork := some false }).fetchCalls = 0 ∧
    (checkPassword env st lru p { allowNetwork := some false }).sent = [] := by
  simp only [checkPassword]
  generalize hDp : sha1HexUpper p = Dp
  rw [hashPfx, hDp] at hmiss
  rw [hmiss]
  exact ⟨rfl, rfl, rfl⟩

/-- C5 witness: a concrete cold-cache offline run. -/
theorem C5_witness :
    (checkPassword envW2 [] (emptyLRU MAX_CACHE_SIZE) "password"
      { allowNetwork := some false }).result = offlineResult ∧
    (checkPassword envW2 [] (emptyLRU MAX_CACHE_SIZE) "password"
      { allowNetwork := some false }).fetchCalls = 0 ∧
    (checkPassword envW2 [] (emptyLRU MAX_CACHE_SIZE) "password"
      { allowNetwork := some false }).sent = [] :=
  C5_offline_mode_no_fetch envW2 [] (emptyLRU MAX_CACHE_SIZE) "password" (by decide)

/-- C10: `checkPassword` is a total function into `BreachResult` — in the
embedding every fallible step is already caught, so no rejection can reach
the caller; whenever the returned result has `checked = false` its
`breached` field is `null` (`none`); and the outer-catch value for
unexpected errors is `{checked := false, breached := none}` with no
`offline` flag. -/
theorem C10_total_unchecked_null (env : Env) (st : List CacheEntry)
    (lru : LRUCacheState) (p : String) (opts : BreachCheckOptions) :
    ((checkPassword env st lru p opts).result.checked = false →
      (checkPassword env st lru p opts).result.breached = none) ∧
    unexpectedResult.checked = false ∧ unexpectedResult.breached = none ∧
    unexpectedResult.offline = none ∧ unexpectedResult.count = none ∧
    unexpectedResult.cached = none := by
  refine ⟨?_, rfl, rfl, rfl, rfl, rfl⟩
  simp only [checkPassword]
  generalize hDp : sha1HexUpper p = Dp
  cases hpro : (probeStep env st lru (Dp.take 5)).fst with
  | some e => intro hch; simp at hch
  | none =>
      cases opts.allowNetwork.getD true with
      | false => intro hch; rfl
      | true =>
          cases env.fetchAvailable with
          | false => intro hch; rfl
          | true =>
              cases (fetchFromHIBP env.net).fst with
              | ok hs => intro hch; simp at hch
              | error err => intro hch; rfl

/-- C10 witness: a concrete unchecked run has `breached = none`, and the
outer-catch value carries no `offline` flag. -/
theorem C10_witness :
    (checkPassword envW2 [] (emptyLRU MAX_CACHE_SIZE) "a" {}).result.breached = none ∧
    unexpectedResult.offline = none :=
  ⟨(C10_total_unchecked_null envW2 [] (emptyLRU MAX_CACHE_SIZE) "a" {}).1 (by decide),
   (C10_total_unchecked_null envW2 [] (emptyLRU MAX_CACHE_SIZE) "a" {}).2.2.2.1⟩

theorem sget_sdel_self (st : List CacheEntry) (k : List Char) :
    sget (sdel st k) k = none := by
  induction st with
  | nil => rfl
  | cons e rest ih => by_cases h : e.pfx = k <;> simp [sdel, sget, h, ih]

/-- C4: durable `get` returns absent when no record exists; an existing
record whose age is within the 24-hour TTL is returned with the store
untouched; a record strictly older than the TTL (for instance
`timestamp = now - (CACHE_TTL_MS + 1)`) is reported absent and deleted as
a side effect. -/
theorem C4_durable_get_ttl (st : List CacheEntry) (k : List Char) (now : Int)
    (e : CacheEntry) :
    (sget st k = none → getCacheEntry true now st k = (none, st)) ∧
    (sget st k = some e → now - e.timestamp ≤ CACHE_TTL_MS →
      getCacheEntry true now st k = (some e, st)) ∧
    (sget st k = some e → now - e.timestamp > CACHE_TTL_MS →
      (getCacheEntry true now st k).fst = none ∧
      (getCacheEntry true now st k).snd = sdel st k ∧
      sget (getCacheEntry true now st k).snd k = none) := by
  refine ⟨?_, ?_, ?_⟩
  · intro h
    simp only [getCacheEntry, if_true, h]
  · intro h hle
    simp only [getCacheEntry, if_true, h]
    rw [if_neg (by omega)]
  · intro h hgt
    simp only [getCacheEntry, if_true, h]
    rw [if_pos hgt]
    exact ⟨rfl, rfl, sget_sdel_self st k⟩

/-- A concrete durable record for the witnesses. -/
def entW : CacheEntry := { pfx := ['A','A','A','A','A'], hashes := [], timestamp := 0 }

/-- C4 witness: an entry written at `now - (CACHE_TTL_MS + 1)` is reported
absent and purged. -/
theorem C4_witness :
    (getCacheEntry true 86400001 [entW] ['A','A','A','A','A']).fst = none ∧
    (getCacheEntry true 86400001 [entW] ['A','A','A','A','A']).snd =
      sdel [entW] ['A','A','A','A','A'] ∧
    sget (getCacheEntry true 86400001 [entW] ['A','A','A','A','A']).snd
      ['A','A','A','A','A'] = none :=
  (C4_durable_get_ttl [entW] ['A','A','A','A','A'] 86400001 entW).2.2
    (by decide) (by decide)

/-- A concrete one-key volatile cache for the witnesses. -/
def lruW : LRUCacheState := buildState [['A','A','A','A','A']] MAX_CACHE_SIZE

/-- C6 counterexample: with the durable backing unavailable, `clearCache`
completes without raising but removes nothing — the open failure enters
the `catch` before `store.clear()` and before the volatile cache is
replaced, so the volatile cache still holds its key and the durable list
is unchanged — refuting the claim that it removes all entries from both
stores even when the backing is unavailable. -/
theorem C6_counterexample :
    clearCache false [entW] lruW = ([entW], lruW) ∧ lruW.cache ≠ [] :=
  ⟨rfl, by decide⟩

/-- C6 (amended): `clearCache` never raises — it is a total function; when
the durable backing is available it clears both stores (every durable
lookup misses afterwards, and the volatile cache is empty with nothing
reachable); when the backing is unavailable the failure is swallowed
before either clear happens and both stores are left unchanged. -/
theorem C6_clear_both_or_none (avail : Bool) (st : List CacheEntry)
    (lru : LRUCacheState) (k : List Char) :
    (avail = true → sget (clearCache avail st lru).fst k = none ∧
      (clearCache avail st lru).snd.cache = [] ∧
      reachable (clearCache avail st lru).snd = []) ∧
    (avail = false → clearCache avail st lru = (st, lru)) := by
  constructor
  · rintro rfl
    exact ⟨rfl, rfl, rfl⟩
  · rintro rfl
    rfl

/-- C6 witness: both modes of `clearCache` at concrete stores. -/
theorem C6_witness :
    sget (clearCache true [entW] lruW).fst ['A','A','A','A','A'] = none ∧
    clearCache false [entW] lruW = ([entW], lruW) :=
  ⟨((C6_clear_both_or_none true [entW] lruW ['A','A','A','A','A']).1 rfl).1,
   (C6_clear_both_or_none false [entW] lruW ['A','A','A','A','A']).2 rfl⟩

/-- Network oracle answering 429 twice, then success. -/
def net429 : Nat → FetchOutcome :=
  fun i => if i < 2 then FetchOutcome.response 429 [] else FetchOutcome.response 200 []

/-- C7 counterexample: one `fetchFromHIBP` call can issue three network
requests — two 429 throttling responses followed by a success make the
function retry internally (with rate limiting and backoff inside the
call, not in the caller), refuting "exactly one network request per
call". -/
theorem C7_counterexample :
    (fetchFromHIBP net429).snd = 3 ∧ (fetchFromHIBP net429).fst = .ok [] := by
  exact ⟨rfl, rfl⟩

theorem fetchAttempts_bounds (net : Nat → FetchOutcome) :
    ∀ remaining attempt le reqs,
      reqs ≤ (fetchAttempts net attempt remaining le reqs).snd ∧
      (fetchAttempts net attempt remaining le reqs).snd ≤ reqs + remaining ∧
      (0 < remaining → reqs + 1 ≤ (fetchAttempts net attempt remaining le reqs).snd) := by
  intro remaining
  induction remaining with
  | zero =>
      intro attempt le reqs
      exact ⟨Nat.le_refl _, Nat.le_add_right _ 0, fun h => absurd h (Nat.lt_irrefl 0)⟩
  | succ r ih =>
      intro attempt le reqs
      cases hnet : net attempt with
      | response status body =>
          simp only [fetchAttempts, hnet]
          by_cases hok : statusOk status = true
          · rw [if_pos hok]
            refine ⟨?_, ?_, fun _ => ?_⟩ <;> simp
          · rw [if_neg hok]
            by_cases h29 : status = 429
            · rw [if_pos h29]
              obtain ⟨ha, hb, -⟩ := ih (attempt + 1) le (reqs + 1)
              exact ⟨by omega, by omega, fun _ => by omega⟩
            · rw [if_neg h29]
              obtain ⟨ha, hb, -⟩ := ih (attempt + 1) (some (.apiError status)) (reqs + 1)
              exact ⟨by omega, by omega, fun _ => by omega⟩
      | transportError =>
          simp only [fetchAttempts, hnet]
          obtain ⟨ha, hb, -⟩ := ih (attempt + 1) (some .transport) (reqs + 1)
          exact ⟨by omega, by omega, fun _ => by omega⟩
      | abortError =>
          simp only [fetchAttempts, hnet]
          refine ⟨?_, ?_, fun _ => ?_⟩ <;> simp

/-- C7 (amended): each attempt of `fetchFromHIBP` issues exactly one
network request, and the retry loop is internal to the call: a single
invocation issues at least one and at most `MAX_RETRIES = 3` requests,
for every possible network behavior. -/
theorem C7_fetch_request_bounds (net : Nat → FetchOutcome) :
    1 ≤ (fetchFromHIBP net).snd ∧ (fetchFromHIBP net).snd ≤ MAX_RETRIES := by
  obtain ⟨-, hb, hc⟩ := fetchAttempts_bounds net MAX_RETRIES 0 none 0
  exact ⟨hc (by decide), by simpa using hb⟩

/-- C8 counterexample: with the backing store unavailable, `initDB` does
not latch the degraded mode — after a first failed call (`dbReady` still
`false`, one open attempt), a second call makes another failed open
attempt, refuting "cached as a boolean ... so that no repeated failed
initialization attempts occur on subsequent operations". -/
theorem C8_counterexample :
    initDB false false = (false, 1) ∧
    initDB (initDB false false).fst false = (false, 1) :=
  ⟨rfl, rfl⟩

/-- C8 (amended): `initDB` latches availability, not absence: once it has
succeeded, later calls make no further open attempts, but while the
backing is unavailable `dbReady` stays `false` and every call re-attempts
(one open per call).  Nevertheless all durable-store operations degrade to
no-ops that never raise: with the store unavailable `getCacheEntry`
misses and leaves the store unchanged, `setCacheEntry` is the identity,
and `clearCache` leaves both stores unchanged. -/
theorem C8_degraded_mode (st : List CacheEntry) (k : List Char) (now : Int)
    (e : CacheEntry) (lru : LRUCacheState) :
    initDB true true = (true, 0) ∧ initDB true false = (true, 0) ∧
    initDB false true = (true, 1) ∧ initDB false false = (false, 1) ∧
    getCacheEntry false now st k = (none, st) ∧
    setCacheEntry false st e = st ∧
    clearCache false st lru = (st, lru) :=
  ⟨rfl, rfl, rfl, rfl, rfl, rfl, rfl⟩


theorem orderAccess_length (L : List LRUKey) (k : LRUKey) :
    (orderAccess L k).length = if k ∈ L then L.length else L.length + 1 := by
  rw [orderAccess]
  by_cases hk : k ∈ L
  · rw [if_pos hk, if_pos hk]
    have := List.length_pos_of_mem hk
    simp only [List.length_cons, List.length_erase_of_mem hk]
    omega
  · rw [if_neg hk, if_neg hk, List.length_cons]

theorem orderAfter_length_le (L : List LRUKey) (k : LRUKey) (cap : Nat)
    (hcap : L.length ≤ cap) : (orderAfter L k cap).fst.length ≤ cap := by
  rw [orderAfter]
  have hl := orderAccess_length L k
  by_cases hgt : (orderAccess L k).length > cap
  · rw [if_pos hgt]
    simp only [List.length_dropLast]
    by_cases hk : k ∈ L
    · rw [if_pos hk] at hl
      omega
    · rw [if_neg hk] at hl
      omega
  · rw [if_neg hgt]
    show (orderAccess L k).length ≤ cap
    omega

theorem orderAfter_snd_eq (L : List LRUKey) (k : LRUKey) (cap : Nat)
    (hcap : L.length ≤ cap) (hpos : 0 < cap) :
    (orderAfter L k cap).snd =
      if k ∈ L ∨ L.length < cap then none else L.getLast? := by
  rw [orderAfter]
  by_cases hk : k ∈ L
  · have h1 : (orderAccess L k).length = L.length := by
      rw [orderAccess_length, if_pos hk]
    rw [if_neg (by omega), if_pos (Or.inl hk)]
  · have h1 : (orderAccess L k).length = L.length + 1 := by
      rw [orderAccess_length, if_neg hk]
    by_cases hlt : L.length < cap
    · rw [if_neg (by omega), if_pos (Or.inr hlt)]
    · have hne : ¬ (k ∈ L ∨ L.length < cap) := by
        rintro (h | h)
        exacts [hk h, hlt h]
      rw [if_pos (by omega), if_neg hne]
      rw [orderAccess, if_neg hk]
      have hLne : L ≠ [] := by
        intro h'
        subst h'
        simp at hlt
        omega
      exact getLast?_cons_of_ne_nil k L hLne

/-- C3: after every `touch` (`access`) on a well-formed cache within
capacity: the updated state realizes the recency order given by
`orderAfter`; the set of keys in the lookup map is exactly the set of
nodes reachable from `head` to `tail`; the number of keys never exceeds
the capacity `MAX_CACHE_SIZE = 1000`; and the eviction signal (the
argument of the `removeFromDB` durable deletion) is `none` unless the
insertion exceeds capacity, in which case it is exactly the
least-recently-touched key (the old tail) and only that one. -/
theorem C3_lru_touch_invariants (s : LRUCacheState) (L : List LRUKey) (k : LRUKey)
    (h : stateRepr s L) (hmax : s.maxSize = MAX_CACHE_SIZE)
    (hcap : L.length ≤ MAX_CACHE_SIZE) :
    stateRepr (access s k).fst (orderAfter L k MAX_CACHE_SIZE).fst ∧
    (access s k).snd = (orderAfter L k MAX_CACHE_SIZE).snd ∧
    (∀ j, mget (access s k).fst.cache j ≠ none ↔ j ∈ reachable (access s k).fst) ∧
    (access s k).fst.cache.length ≤ MAX_CACHE_SIZE ∧
    (access s k).snd = (if k ∈ L ∨ L.length < MAX_CACHE_SIZE then none else L.getLast?) := by
  have hsim := access_sim s L k h (by rw [hmax]; exact hcap)
  rw [hmax] at hsim
  obtain ⟨hrep', hev⟩ := hsim
  have hre := reachable_repr _ _ hrep'
  refine ⟨hrep', hev, ?_, ?_, ?_⟩
  · intro j
    rw [hre]
    exact mget_repr_ne_none_iff _ _ hrep' j
  · have hlen' := hrep'.2.2.2.2.1
    rw [hlen']
    exact orderAfter_length_le L k MAX_CACHE_SIZE hcap
  · rw [hev]
    exact orderAfter_snd_eq L k MAX_CACHE_SIZE hcap (by decide)

/-- C3 witness: touching a fresh key on a singleton cache evicts nothing
and stays within capacity. -/
theorem C3_witness :
    (access (buildState [['A','A','A','A','A']] MAX_CACHE_SIZE) ['B','B','B','B','B']).snd =
      (if ['B','B','B','B','B'] ∈ [['A','A','A','A','A']] ∨
          ([['A','A','A','A','A']] : List LRUKey).length < MAX_CACHE_SIZE then none
       else ([['A','A','A','A','A']] : List LRUKey).getLast?) ∧
    (access (buildState [['A','A','A','A','A']] MAX_CACHE_SIZE)
      ['B','B','B','B','B']).fst.cache.length ≤ MAX_CACHE_SIZE :=
  ⟨(C3_lru_touch_invariants _ [['A','A','A','A','A']] ['B','B','B','B','B']
      (stateRepr_build _ _ (by decide)) rfl (by decide)).2.2.2.2,
   (C3_lru_touch_invariants _ [['A','A','A','A','A']] ['B','B','B','B','B']
      (stateRepr_build _ _ (by decide)) rfl (by decide)).2.2.2.1⟩

end BreachSpec
